import Mathlib

/-!
Shallow embedding of `klaus/contrib/wsgi_autodetecting.py`:
the `AutodetectingRepoDict` mapping (lookup with adaptive suffix order,
cache policies, enumeration) over an abstract filesystem.

Strings are modelled by Lean `String` (a list of characters, matching
Python's `str` as a sequence of code points).  The filesystem is a pair of
an existence predicate on paths (lists of path components, relative to the
process root) and the list of entries of the configured root directory
(name and is-directory flag), matching `Path.exists` and `Path.iterdir`.
Python dicts are modelled as association lists in insertion order.
-/

/-- Whether the second character list is a leading segment of the first
(Python `str.startswith`, on code points). -/
def charsStart : List Char → List Char → Bool
  | _, [] => true
  | [], _ :: _ => false
  | a :: as, b :: bs => a == b && charsStart as bs

/-- Whether the second character list is a trailing segment of the first
(Python `str.endswith`). -/
def strEnds (s p : List Char) : Bool := charsStart s.reverse p.reverse

/-- Split a character list on the path separator character, per
`str.split("/")`: the accumulator holds the current component reversed. -/
def splitChars : List Char → List Char → List String
  | [], acc => [String.mk acc.reverse]
  | c :: cs, acc =>
    if c = '/' then String.mk acc.reverse :: splitChars cs []
    else splitChars cs (c :: acc)

/-- The components `pathlib` keeps when parsing a relative path string:
split on the separator, dropping empty components and lone dots
(`PurePath` parsing, so that `p / "."` is `p`). -/
def pathParse (s : String) : List String :=
  (splitChars s.data []).filter (fun c => c != "" && c != ".")

/-- Whether a character is rejected by `_bad_chars`: the null character,
`os.sep`, or `os.altsep` when the platform has one. -/
def badChar (sep : Char) (altsep : Option Char) (c : Char) : Bool :=
  c == '\x00' || c == sep || altsep == some c

/-- The name test at the top of `AutodetectingRepoDict.__getitem__`: a name
passes unless it is falsy (empty), starts with a dot, is `os.curdir` or
`os.pardir`, or meets `_bad_chars`. -/
def validName (sep : Char) (altsep : Option Char) (name : String) : Bool :=
  !(name == "" || charsStart name.data ['.'] || name == "." || name == ".." ||
    name.data.any (badChar sep altsep))

/-- Python `str.removesuffix`: strips one occurrence of a non-empty
trailing suffix, otherwise returns the string unchanged. -/
def removesuffix (s suf : String) : String :=
  if suf != "" && strEnds s.data suf.data then
    String.mk (s.data.take (s.data.length - suf.data.length))
  else s

/-- Insert a string into a list kept in order of non-increasing length,
before the first strictly shorter element (the stable insertion step of
`sorted(key=len, reverse=True)`). -/
def insertLenDesc (s : String) : List String → List String
  | [] => [s]
  | t :: ts => if s.data.length < t.data.length then t :: insertLenDesc s ts else s :: t :: ts

/-- Stable sort by non-increasing length: `sorted(suffixes, key=len,
reverse=True)` in `__iter__`. -/
def sortLenDesc (l : List String) : List String := l.foldr insertLenDesc []

/-- The loop body of `removesuffixes` in `__iter__`: return the first
attempt that changed the string, else the string itself. -/
def stripFirst (s : String) : List String → String
  | [] => s
  | suf :: rest =>
    let attempt := removesuffix s suf
    if attempt != s then attempt else stripFirst s rest

/-- `removesuffixes` from `__iter__`: strip the first matching suffix,
trying suffixes in order of decreasing length. -/
def removesuffixes (suffixes : List String) (s : String) : String :=
  stripFirst s (sortLenDesc suffixes)

/-- The repository handle `klaus.repo.FancyRepo(str(path), namespace)`:
opaque to this module, determined by the resolved path and the namespace
tag it was constructed with. -/
structure FancyRepo where
  path : List String
  ns : Option String
deriving DecidableEq

/-- The filesystem as this module observes it: which paths exist
(`Path.exists`) and which entries the root directory holds
(`Path.iterdir`, as entry name and is-directory flag). -/
structure FS where
  pathExists : List String → Bool
  rootEntries : List (String × Bool)

/-- The state of an `AutodetectingRepoDict`: the root path (as
components), the namespace tag, the two policy fields, the suffix dict
keys in insertion order, and the cache dict as an association list. -/
structure RepoDict where
  root : List String
  ns : Option String
  detectRemovals : Bool
  exportOkPath : String
  suffixes : List String
  cache : List (String × FancyRepo)
deriving DecidableEq

/-- Dict read `cache[name]`: the value at the key, if present. -/
def cacheLookup (c : List (String × FancyRepo)) (n : String) : Option FancyRepo :=
  (c.find? (fun e => e.1 == n)).map (fun e => e.2)

/-- Dict removal `cache.pop(name, None)`: drop the entry at the key. -/
def cachePop (c : List (String × FancyRepo)) (n : String) : List (String × FancyRepo) :=
  c.filter (fun e => e.1 != n)

/-- Dict write `cache[name] = repo`: replace in place when the key is
present, append otherwise. -/
def cacheInsert (c : List (String × FancyRepo)) (n : String) (r : FancyRepo) :
    List (String × FancyRepo) :=
  if (c.find? (fun e => e.1 == n)).isSome then
    c.map (fun e => if e.1 == n then (n, r) else e)
  else c ++ [(n, r)]

/-- One filesystem probe of `__getitem__`: whether
`root / (name + suffix) / export_ok_path` exists. -/
def probePred (d : RepoDict) (fs : FS) (name sfx : String) : Bool :=
  fs.pathExists (d.root ++ pathParse (name ++ sfx) ++ pathParse d.exportOkPath)

/-- The `for suffix in reversed(self._suffixes)` loop: the first element
satisfying the probe, together with the number of probes performed. -/
def probeLoop (p : String → Bool) : List String → Option String × Nat
  | [] => (none, 0)
  | s :: rest =>
    if p s then (some s, 1)
    else
      let r := probeLoop p rest
      (r.1, r.2 + 1)

/-- `AutodetectingRepoDict.__getitem__`, instrumented with the probe
count: result (`none` for `KeyError`), the state afterwards, and how many
existence probes ran.  `sep`/`altsep` are the platform's `os.sep` and
`os.altsep`. -/
def getitemP (sep : Char) (altsep : Option Char) (d : RepoDict) (fs : FS) (name : String) :
    Option FancyRepo × RepoDict × Nat :=
  if !validName sep altsep name then (none, d, 0)
  else if !d.detectRemovals && (cacheLookup d.cache name).isSome then
    (cacheLookup d.cache name, d, 0)
  else
    match probeLoop (probePred d fs name) d.suffixes.reverse with
    | (none, k) => (none, { d with cache := cachePop d.cache name }, k)
    | (some s, k) =>
      let d1 := { d with suffixes := (d.suffixes.erase s) ++ [s] }
      if d.detectRemovals && (cacheLookup d.cache name).isSome then
        (cacheLookup d.cache name, d1, k)
      else
        let repo : FancyRepo := ⟨d.root ++ pathParse (name ++ s), d.ns⟩
        (some repo, { d1 with cache := cacheInsert d1.cache name repo }, k)

/-- `__getitem__` without the instrumentation: result and state. -/
def getitem (sep : Char) (altsep : Option Char) (d : RepoDict) (fs : FS) (name : String) :
    Option FancyRepo × RepoDict :=
  ((getitemP sep altsep d fs name).1, (getitemP sep altsep d fs name).2.1)

/-- `is_valid_repo` from `__iter__`: a cache hit suffices when removal
detection is off, otherwise the marker must exist under the entry. -/
def isValidRepo (d : RepoDict) (fs : FS) (entryName : String) : Bool :=
  (!d.detectRemovals && (cacheLookup d.cache entryName).isSome)
    || fs.pathExists (d.root ++ [entryName] ++ pathParse d.exportOkPath)

/-- `AutodetectingRepoDict.__iter__`, fully evaluated: the names yielded
for the valid entries of the root, suffixes stripped longest-first. -/
def iterNames (d : RepoDict) (fs : FS) : List String :=
  (fs.rootEntries.filter (fun e => isValidRepo d fs e.1)).map
    (fun e => removesuffixes d.suffixes e.1)

/-- `AutodetectingRepoDict.__len__`: exhausts the enumeration. -/
def lenNames (d : RepoDict) (fs : FS) : Nat := (iterNames d fs).length

/-- `__iter__` as a state transformer: its value and the mapping state
after the call (the method only reads the cache and the suffixes). -/
def iterWithState (d : RepoDict) (fs : FS) : List String × RepoDict := (iterNames d fs, d)

/-- `__len__` as a state transformer, like `iterWithState`. -/
def lenWithState (d : RepoDict) (fs : FS) : Nat × RepoDict := (lenNames d fs, d)

/-- A read-only operation on the mapping: an `__iter__` or `__len__` call. -/
inductive ReadOp where
  | iterOp : ReadOp
  | lenOp : ReadOp

/-- Run a sequence of read-only operations, threading the state. -/
def runReads (d : RepoDict) (fs : FS) : List ReadOp → RepoDict
  | [] => d
  | op :: rest =>
    match op with
    | .iterOp => runReads (iterWithState d fs).2 fs rest
    | .lenOp => runReads (lenWithState d fs).2 fs rest

/-- Run a sequence of lookups, each against its own filesystem state,
threading the mapping state. -/
def runGets (sep : Char) (altsep : Option Char) (d : RepoDict) :
    List (FS × String) → RepoDict
  | [] => d
  | (fs, name) :: rest => runGets sep altsep (getitemP sep altsep d fs name).2.1 rest

/-- Keep the first occurrence of each key, given the keys seen so far
(`dict.fromkeys` deduplication). -/
def dedupFrom : List String → List String → List String
  | [], _ => []
  | x :: xs, seen => if seen.contains x then dedupFrom xs seen else x :: dedupFrom xs (x :: seen)

/-- The keys of `dict.fromkeys(l)`: first occurrences, in order. -/
def dictFromKeys (l : List String) : List String := dedupFrom l []

/-- `AutodetectingRepoDict.__init__`: optional arguments defaulted with
`coalesce`, and the suffix dict built from the reversed suffix list. -/
def mkRepoDict (root : List String) (ns : Option String) (detectRemovals : Option Bool)
    (exportOkPath : Option String) (directorySuffixes : Option (List String)) : RepoDict :=
  { root := root
    ns := ns
    detectRemovals := detectRemovals.getD true
    exportOkPath := exportOkPath.getD "git-daemon-export-ok"
    suffixes := dictFromKeys ((directorySuffixes.getD ["", ".git"]).reverse)
    cache := [] }

/-! ## Basic lemmas about the probe loop and the cache -/

theorem probeLoop_found_mem {p : String → Bool} {l : List String} {s : String}
    (h : (probeLoop p l).1 = some s) : s ∈ l := by
  induction l with
  | nil => simp [probeLoop] at h
  | cons a rest ih =>
    by_cases hp : p a = true
    · simp [probeLoop, hp] at h
      simp [h]
    · simp [probeLoop, hp] at h
      exact List.mem_cons_of_mem a (ih h)

theorem probeLoop_none {p : String → Bool} {l : List String}
    (h : ∀ s ∈ l, p s = false) : (probeLoop p l).1 = none := by
  induction l with
  | nil => simp [probeLoop]
  | cons a rest ih =>
    have ha := h a (List.mem_cons_self a rest)
    simp [probeLoop, ha]
    exact ih (fun s hs => h s (List.mem_cons_of_mem a hs))

theorem probeLoop_head {p : String → Bool} {a : String} (l : List String)
    (h : p a = true) : probeLoop p (a :: l) = (some a, 1) := by
  simp [probeLoop, h]

theorem cacheLookup_cachePop (c : List (String × FancyRepo)) (n : String) :
    cacheLookup (cachePop c n) n = none := by
  induction c with
  | nil => simp [cacheLookup, cachePop]
  | cons e rest ih =>
    by_cases he : e.1 == n
    · simpa [cacheLookup, cachePop, he] using ih
    · simpa [cacheLookup, cachePop, he] using ih

/-! ## Branch equations for the lookup -/

theorem getitemP_invalid {sep : Char} {altsep : Option Char} {d : RepoDict} {fs : FS}
    {name : String} (h : validName sep altsep name = false) :
    getitemP sep altsep d fs name = (none, d, 0) := by
  simp [getitemP, h]

theorem getitemP_noMatch {sep : Char} {altsep : Option Char} {d : RepoDict} {fs : FS}
    {name : String} {k : Nat}
    (hv : validName sep altsep name = true)
    (hnc : d.detectRemovals = true ∨ cacheLookup d.cache name = none)
    (hpl : probeLoop (probePred d fs name) d.suffixes.reverse = (none, k)) :
    getitemP sep altsep d fs name = (none, { d with cache := cachePop d.cache name }, k) := by
  have hg : (!d.detectRemovals && (cacheLookup d.cache name).isSome) = false := by
    rcases hnc with h | h <;> simp [h]
  simp [getitemP, hv, hg, hpl]

theorem getitemP_matchCached {sep : Char} {altsep : Option Char} {d : RepoDict} {fs : FS}
    {name s : String} {k : Nat} {r : FancyRepo}
    (hv : validName sep altsep name = true)
    (hd : d.detectRemovals = true)
    (hc : cacheLookup d.cache name = some r)
    (hpl : probeLoop (probePred d fs name) d.suffixes.reverse = (some s, k)) :
    getitemP sep altsep d fs name =
      (some r, { d with suffixes := (d.suffixes.erase s) ++ [s] }, k) := by
  simp [getitemP, hv, hd, hc, hpl]

theorem getitemP_matchNew {sep : Char} {altsep : Option Char} {d : RepoDict} {fs : FS}
    {name s : String} {k : Nat}
    (hv : validName sep altsep name = true)
    (hc : cacheLookup d.cache name = none)
    (hpl : probeLoop (probePred d fs name) d.suffixes.reverse = (some s, k)) :
    getitemP sep altsep d fs name =
      (some ⟨d.root ++ pathParse (name ++ s), d.ns⟩,
        { d with suffixes := (d.suffixes.erase s) ++ [s],
                 cache := cacheInsert d.cache name ⟨d.root ++ pathParse (name ++ s), d.ns⟩ },
        k) := by
  simp [getitemP, hv, hc, hpl]

/-! ## Claim theorems -/

/-- C1: a name that is empty, equal to "." or "..", starts with ".", or
contains a null character or a path separator is reported not found by
lookup, with the state (cache included) unchanged and without any
filesystem probe, for every filesystem and cache state. -/
theorem C1_invalid_rejected (sep : Char) (altsep : Option Char) (d : RepoDict) (fs : FS)
    (name : String)
    (h : name = "" ∨ name = "." ∨ name = ".." ∨ charsStart name.data ['.'] = true ∨
      name.data.any (badChar sep altsep) = true) :
    getitemP sep altsep d fs name = (none, d, 0) := by
  apply getitemP_invalid
  unfold validName
  rcases h with h | h | h | h | h <;> simp [h]

def wDict : RepoDict :=
  { root := [], ns := none, detectRemovals := true, exportOkPath := "git-daemon-export-ok",
    suffixes := [".git", ""], cache := [] }

def wFS : FS := ⟨fun _ => false, []⟩

/-- Witness for C1 at the dotfile name ".hidden". -/
theorem C1_invalid_rejected_witness :
    getitemP '/' none wDict wFS ".hidden" = (none, wDict, 0) :=
  C1_invalid_rejected '/' none wDict wFS ".hidden"
    (Or.inr (Or.inr (Or.inr (Or.inl (by decide)))))

/-- C3: with removal detection on, a valid name whose handle is cached but
for which no configured suffix yields an existing marker is reported not
found, and the cache afterwards has no entry for that name. -/
theorem C3_stale_evicted (sep : Char) (altsep : Option Char) (d : RepoDict) (fs : FS)
    (name : String)
    (hv : validName sep altsep name = true)
    (hd : d.detectRemovals = true)
    (hc : (cacheLookup d.cache name).isSome = true)
    (hno : ∀ s ∈ d.suffixes, probePred d fs name s = false) :
    (getitemP sep altsep d fs name).1 = none ∧
      cacheLookup (getitemP sep altsep d fs name).2.1.cache name = none := by
  rcases hplEq : probeLoop (probePred d fs name) d.suffixes.reverse with ⟨o, k⟩
  have h1 : (probeLoop (probePred d fs name) d.suffixes.reverse).1 = none :=
    probeLoop_none (fun s hs => hno s (List.mem_reverse.mp hs))
  rw [hplEq] at h1
  subst h1
  rw [getitemP_noMatch hv (Or.inl hd) hplEq]
  exact ⟨rfl, cacheLookup_cachePop d.cache name⟩

def w3dict : RepoDict :=
  { root := [], ns := none, detectRemovals := true, exportOkPath := "git-daemon-export-ok",
    suffixes := [".git", ""], cache := [("bar", ⟨["bar"], none⟩)] }

/-- Witness for C3: "bar" is cached but its directory is gone. -/
theorem C3_stale_evicted_witness :
    (getitemP '/' none w3dict wFS "bar").1 = none ∧
      cacheLookup (getitemP '/' none w3dict wFS "bar").2.1.cache "bar" = none :=
  C3_stale_evicted '/' none w3dict wFS "bar" (by decide) (by decide) (by decide) (by decide)

/-- C4: with removal detection off, a valid name with a cache entry is
served from the cache with no filesystem probe and no state change, for
every filesystem state. -/
theorem C4_cached_served (sep : Char) (altsep : Option Char) (d : RepoDict) (fs : FS)
    (name : String) (r : FancyRepo)
    (hd : d.detectRemovals = false)
    (hv : validName sep altsep name = true)
    (hc : cacheLookup d.cache name = some r) :
    getitemP sep altsep d fs name = (some r, d, 0) := by
  simp [getitemP, hv, hd, hc]

def w4dict : RepoDict :=
  { root := [], ns := none, detectRemovals := false, exportOkPath := "git-daemon-export-ok",
    suffixes := [".git", ""], cache := [("bar", ⟨["bar"], none⟩)] }

/-- Witness for C4: the backing directory is deleted (nothing exists on
the filesystem) yet the cached handle for "bar" is still returned. -/
theorem C4_cached_served_witness :
    getitemP '/' none w4dict wFS "bar" = (some ⟨["bar"], none⟩, w4dict, 0) :=
  C4_cached_served '/' none w4dict wFS "bar" ⟨["bar"], none⟩ (by decide) (by decide) (by decide)

/-! ## Probe counting and suffix promotion -/

theorem getitemP_fastCache {sep : Char} {altsep : Option Char} {d : RepoDict} {fs : FS}
    {name : String} {r : FancyRepo}
    (hd : d.detectRemovals = false) (hc : cacheLookup d.cache name = some r)
    (hv : validName sep altsep name = true) :
    getitemP sep altsep d fs name = (some r, d, 0) := by
  simp [getitemP, hv, hd, hc]

theorem guard_false_cases {d : RepoDict} {name : String}
    (hg : ¬((!d.detectRemovals && (cacheLookup d.cache name).isSome) = true)) :
    d.detectRemovals = true ∨ cacheLookup d.cache name = none := by
  by_cases hd : d.detectRemovals = true
  · exact Or.inl hd
  · right
    have hd' : d.detectRemovals = false := by simpa using hd
    rcases hcl : cacheLookup d.cache name with _ | r
    · rfl
    · exact absurd (by simp [hd', hcl] : (!d.detectRemovals && (cacheLookup d.cache name).isSome)
        = true) hg

theorem getitemP_count_cases (sep : Char) (altsep : Option Char) (d : RepoDict) (fs : FS)
    (name : String) :
    (getitemP sep altsep d fs name).2.2 = 0 ∨
      (getitemP sep altsep d fs name).2.2 =
        (probeLoop (probePred d fs name) d.suffixes.reverse).2 := by
  by_cases hval : validName sep altsep name = true
  · by_cases hg : (!d.detectRemovals && (cacheLookup d.cache name).isSome) = true
    · obtain ⟨hd, hs⟩ : (!d.detectRemovals) = true ∧ (cacheLookup d.cache name).isSome = true := by
        simpa using hg
      rcases Option.isSome_iff_exists.mp hs with ⟨r, hr⟩
      exact Or.inl (by rw [getitemP_fastCache (by simpa using hd) hr hval])
    · have hnc := guard_false_cases hg
      rcases hpl : probeLoop (probePred d fs name) d.suffixes.reverse with ⟨o, k⟩
      cases o with
      | none =>
        exact Or.inr (by rw [getitemP_noMatch hval hnc hpl])
      | some s =>
        rcases hcc : cacheLookup d.cache name with _ | r
        · exact Or.inr (by rw [getitemP_matchNew hval hcc hpl])
        · have hd : d.detectRemovals = true := by
            rcases hnc with h | h
            · exact h
            · rw [h] at hcc; exact Option.noConfusion hcc
          exact Or.inr (by rw [getitemP_matchCached hval hd hcc hpl])
  · exact Or.inl (by rw [getitemP_invalid (by simpa using hval)])

/-- C2: on a lookup not served purely from cache, the first suffix (in
reverse stored order) whose marker probe succeeds is moved to the end of
the stored order, hence probed first next time; consequently a following
lookup of another name whose marker exists under that same suffix performs
at most one marker-existence probe. -/
theorem C2_suffix_promoted (sep : Char) (altsep : Option Char) (d : RepoDict) (fs : FS)
    (name1 name2 s : String)
    (hv1 : validName sep altsep name1 = true)
    (hnc : d.detectRemovals = true ∨ cacheLookup d.cache name1 = none)
    (hm : (probeLoop (probePred d fs name1) d.suffixes.reverse).1 = some s)
    (hv2 : validName sep altsep name2 = true)
    (hp2 : probePred d fs name2 s = true) :
    (getitemP sep altsep d fs name1).2.1.suffixes = (d.suffixes.erase s) ++ [s] ∧
      (getitemP sep altsep (getitemP sep altsep d fs name1).2.1 fs name2).2.2 ≤ 1 := by
  rcases hpl : probeLoop (probePred d fs name1) d.suffixes.reverse with ⟨o, k⟩
  rw [hpl] at hm
  obtain rfl : o = some s := hm
  have hstate : (getitemP sep altsep d fs name1).2.1.suffixes = (d.suffixes.erase s) ++ [s] ∧
      (getitemP sep altsep d fs name1).2.1.root = d.root ∧
      (getitemP sep altsep d fs name1).2.1.exportOkPath = d.exportOkPath := by
    rcases hcc : cacheLookup d.cache name1 with _ | r
    · rw [getitemP_matchNew hv1 hcc hpl]
      exact ⟨rfl, rfl, rfl⟩
    · rcases hnc with hdt | hnone
      · rw [getitemP_matchCached hv1 hdt hcc hpl]
        exact ⟨rfl, rfl, rfl⟩
      · rw [hnone] at hcc
        exact Option.noConfusion hcc
  obtain ⟨hS, hR, hE⟩ := hstate
  refine ⟨hS, ?_⟩
  have hp2' : probePred (getitemP sep altsep d fs name1).2.1 fs name2 s = true := by
    unfold probePred
    rw [hR, hE]
    exact hp2
  rcases getitemP_count_cases sep altsep (getitemP sep altsep d fs name1).2.1 fs name2
    with h0 | heq
  · rw [h0]
    exact Nat.zero_le 1
  · rw [heq]
    have hrev : (getitemP sep altsep d fs name1).2.1.suffixes.reverse =
        s :: (d.suffixes.erase s).reverse := by
      rw [hS]
      simp
    rw [hrev, probeLoop_head _ hp2']

def w2dict : RepoDict :=
  { root := [], ns := none, detectRemovals := true, exportOkPath := "git-daemon-export-ok",
    suffixes := [".git", ""], cache := [] }

def w2fs : FS :=
  ⟨fun p => p == ["a.git", "git-daemon-export-ok"] || p == ["b.git", "git-daemon-export-ok"],
    [("a.git", true), ("b.git", true)]⟩

/-- Witness for C2: looking up "a" matches ".git" on the second probe and
promotes it; looking up "b" afterwards needs at most one probe. -/
theorem C2_suffix_promoted_witness :
    (getitemP '/' none w2dict w2fs "a").2.1.suffixes = (w2dict.suffixes.erase ".git") ++ [".git"] ∧
      (getitemP '/' none (getitemP '/' none w2dict w2fs "a").2.1 w2fs "b").2.2 ≤ 1 :=
  C2_suffix_promoted '/' none w2dict w2fs "a" "b" ".git" (by decide) (Or.inl (by decide))
    (by decide) (by decide) (by decide)

/-! ## Suffix-set preservation and purity of the read operations -/

theorem getitemP_suffixes_perm (sep : Char) (altsep : Option Char) (d : RepoDict) (fs : FS)
    (name : String) : ((getitemP sep altsep d fs name).2.1.suffixes).Perm d.suffixes := by
  by_cases hval : validName sep altsep name = true
  · by_cases hg : (!d.detectRemovals && (cacheLookup d.cache name).isSome) = true
    · obtain ⟨hd, hs⟩ : (!d.detectRemovals) = true ∧ (cacheLookup d.cache name).isSome = true := by
        simpa using hg
      rcases Option.isSome_iff_exists.mp hs with ⟨r, hr⟩
      rw [getitemP_fastCache (by simpa using hd) hr hval]
    · have hnc := guard_false_cases hg
      rcases hpl : probeLoop (probePred d fs name) d.suffixes.reverse with ⟨o, k⟩
      cases o with
      | none =>
        rw [getitemP_noMatch hval hnc hpl]
      | some s =>
        have hsm : s ∈ d.suffixes := List.mem_reverse.mp (probeLoop_found_mem (by rw [hpl]))
        have hperm : ((d.suffixes.erase s) ++ [s]).Perm d.suffixes :=
          (List.perm_append_singleton s _).trans (List.perm_cons_erase hsm).symm
        rcases hcc : cacheLookup d.cache name with _ | r
        · rw [getitemP_matchNew hval hcc hpl]
          exact hperm
        · have hd : d.detectRemovals = true := by
            rcases hnc with h | h
            · exact h
            · rw [h] at hcc; exact Option.noConfusion hcc
          rw [getitemP_matchCached hval hd hcc hpl]
          exact hperm
  · rw [getitemP_invalid (by simpa using hval)]

/-- C8: starting from a constructed mapping, any sequence of lookups
(each against its own filesystem state) leaves the suffix collection with
exactly the members it was constructed with; only the order may change. -/
theorem C8_suffix_set_preserved (sep : Char) (altsep : Option Char) (root : List String)
    (ns : Option String) (dr : Option Bool) (eop : Option String)
    (ds : Option (List String)) (ops : List (FS × String)) :
    ((runGets sep altsep (mkRepoDict root ns dr eop ds) ops).suffixes).Perm
      (mkRepoDict root ns dr eop ds).suffixes := by
  have main : ∀ (ops : List (FS × String)) (d : RepoDict),
      ((runGets sep altsep d ops).suffixes).Perm d.suffixes := by
    intro ops
    induction ops with
    | nil => exact fun d => List.Perm.refl _
    | cons op rest ih =>
      intro d
      rcases op with ⟨fs, name⟩
      exact (ih _).trans (getitemP_suffixes_perm sep altsep d fs name)
  exact main ops _

theorem runReads_eq (d : RepoDict) (fs : FS) (ops : List ReadOp) : runReads d fs ops = d := by
  induction ops with
  | nil => rfl
  | cons op rest ih => cases op <;> exact ih

/-- C9: enumeration and size are pure with respect to the mapping's own
state: after any sequence of iteration and size calls the cache and the
suffix order are exactly what they were before. -/
theorem C9_reads_pure (d : RepoDict) (fs : FS) (ops : List ReadOp) :
    (runReads d fs ops).cache = d.cache ∧ (runReads d fs ops).suffixes = d.suffixes := by
  rw [runReads_eq]
  exact ⟨rfl, rfl⟩

/-! ## Suffix stripping: sortedness and the longest-match property -/

theorem mem_insertLenDesc {a s : String} {l : List String} :
    a ∈ insertLenDesc s l ↔ a = s ∨ a ∈ l := by
  induction l with
  | nil => simp [insertLenDesc]
  | cons t ts ih =>
    by_cases h : s.data.length < t.data.length
    · simp only [insertLenDesc, if_pos h, List.mem_cons, ih]
      tauto
    · simp only [insertLenDesc, if_neg h, List.mem_cons]

theorem mem_sortLenDesc {a : String} {l : List String} : a ∈ sortLenDesc l ↔ a ∈ l := by
  induction l with
  | nil => simp [sortLenDesc]
  | cons t ts ih =>
    rw [show sortLenDesc (t :: ts) = insertLenDesc t (sortLenDesc ts) from rfl,
      mem_insertLenDesc, ih]
    simp

theorem pairwise_insertLenDesc {s : String} {l : List String}
    (h : l.Pairwise (fun a b => b.data.length ≤ a.data.length)) :
    (insertLenDesc s l).Pairwise (fun a b => b.data.length ≤ a.data.length) := by
  induction l with
  | nil => simp [insertLenDesc]
  | cons t ts ih =>
    rcases List.pairwise_cons.mp h with ⟨ht, hts⟩
    by_cases hlt : s.data.length < t.data.length
    · rw [show insertLenDesc s (t :: ts) = t :: insertLenDesc s ts from by
        simp only [insertLenDesc]; rw [if_pos hlt]]
      refine List.pairwise_cons.mpr ⟨?_, ih hts⟩
      intro b hb
      rcases mem_insertLenDesc.mp hb with rfl | hb'
      · exact Nat.le_of_lt hlt
      · exact ht b hb'
    · rw [show insertLenDesc s (t :: ts) = s :: t :: ts from by
        simp only [insertLenDesc]; rw [if_neg hlt]]
      refine List.pairwise_cons.mpr ⟨?_, h⟩
      intro b hb
      rcases List.mem_cons.mp hb with rfl | hb'
      · exact Nat.le_of_not_lt hlt
      · exact Nat.le_trans (ht b hb') (Nat.le_of_not_lt hlt)

theorem pairwise_sortLenDesc (l : List String) :
    (sortLenDesc l).Pairwise (fun a b => b.data.length ≤ a.data.length) := by
  induction l with
  | nil => simp [sortLenDesc]
  | cons t ts ih => exact pairwise_insertLenDesc ih

theorem charsStart_length {a p : List Char} (h : charsStart a p = true) : p.length ≤ a.length := by
  induction p generalizing a with
  | nil => simp
  | cons c cs ih =>
    cases a with
    | nil => simp [charsStart] at h
    | cons b bs =>
      simp only [charsStart, Bool.and_eq_true] at h
      simpa using ih h.2

theorem strEnds_length {s p : List Char} (h : strEnds s p = true) : p.length ≤ s.length := by
  have := charsStart_length h
  simpa using this

theorem removesuffix_no_match {s suf : String}
    (h : suf = "" ∨ strEnds s.data suf.data = false) : removesuffix s suf = s := by
  unfold removesuffix
  rcases h with h | h
  · simp [h]
  · simp [h]

theorem removesuffix_match {s suf : String} (h1 : suf ≠ "")
    (h2 : strEnds s.data suf.data = true) :
    removesuffix s suf = String.mk (s.data.take (s.data.length - suf.data.length)) := by
  unfold removesuffix
  have hcond : (suf != "" && strEnds s.data suf.data) = true := by
    simp [bne_iff_ne, h1, h2]
  simp [hcond]

theorem string_ne_data {suf : String} (h : suf ≠ "") : suf.data ≠ [] := by
  intro hd
  exact h (by cases suf; simp_all)

theorem removesuffix_ne {s suf : String} (h1 : suf ≠ "")
    (h2 : strEnds s.data suf.data = true) : removesuffix s suf ≠ s := by
  rw [removesuffix_match h1 h2]
  intro he
  have hdata : (s.data.take (s.data.length - suf.data.length)) = s.data := by
    have := congrArg String.data he
    simpa using this
  have hlen := congrArg List.length hdata
  rw [List.length_take] at hlen
  have hk : 0 < suf.data.length := List.length_pos.mpr (string_ne_data h1)
  have hks : suf.data.length ≤ s.data.length := strEnds_length h2
  omega

theorem removesuffix_ne_cases {s suf : String} (h : removesuffix s suf ≠ s) :
    suf ≠ "" ∧ strEnds s.data suf.data = true := by
  by_cases h1 : suf = ""
  · exact absurd (removesuffix_no_match (Or.inl h1)) h
  · cases h2 : strEnds s.data suf.data with
    | false => exact absurd (removesuffix_no_match (Or.inr h2)) h
    | true => exact ⟨h1, rfl⟩

theorem stripFirst_spec (s : String) (l : List String)
    (hs : l.Pairwise (fun a b => b.data.length ≤ a.data.length)) :
    (∃ suf, suf ∈ l ∧ removesuffix s suf ≠ s ∧ stripFirst s l = removesuffix s suf ∧
        ∀ suf2 ∈ l, removesuffix s suf2 ≠ s → suf2.data.length ≤ suf.data.length)
      ∨ (stripFirst s l = s ∧ ∀ suf ∈ l, removesuffix s suf = s) := by
  induction l with
  | nil => exact Or.inr ⟨rfl, by simp⟩
  | cons h t ih =>
    rcases List.pairwise_cons.mp hs with ⟨hhead, htail⟩
    by_cases hb : (removesuffix s h != s) = true
    · have hm : removesuffix s h ≠ s := bne_iff_ne.mp hb
      left
      refine ⟨h, List.mem_cons_self h t, hm, by simp [stripFirst, hb], ?_⟩
      intro suf2 h2 _
      rcases List.mem_cons.mp h2 with rfl | h2'
      · exact Nat.le_refl _
      · exact hhead suf2 h2'
    · have hm : removesuffix s h = s := by
        have : ¬(removesuffix s h ≠ s) := fun hne => hb (bne_iff_ne.mpr hne)
        exact not_not.mp this
      have hrw : stripFirst s (h :: t) = stripFirst s t := by simp [stripFirst, hb]
      rcases ih htail with ⟨suf, hmem, hne, heq, hmax⟩ | ⟨heq, hall⟩
      · left
        refine ⟨suf, List.mem_cons_of_mem h hmem, hne, by rw [hrw, heq], ?_⟩
        intro suf2 h2 hne2
        rcases List.mem_cons.mp h2 with rfl | h2'
        · exact absurd hm hne2
        · exact hmax suf2 h2' hne2
      · right
        refine ⟨by rw [hrw, heq], ?_⟩
        intro suf h2
        rcases List.mem_cons.mp h2 with rfl | h2'
        · exact hm
        · exact hall suf h2'

theorem removesuffixes_spec (sufs : List String) (s : String) :
    (∃ suf, suf ∈ sufs ∧ suf ≠ "" ∧ strEnds s.data suf.data = true ∧
        removesuffixes sufs s = String.mk (s.data.take (s.data.length - suf.data.length)) ∧
        ∀ suf2 ∈ sufs, suf2 ≠ "" → strEnds s.data suf2.data = true →
          suf2.data.length ≤ suf.data.length)
      ∨ (removesuffixes sufs s = s ∧
          ∀ suf ∈ sufs, suf ≠ "" → strEnds s.data suf.data = false) := by
  rcases stripFirst_spec s (sortLenDesc sufs) (pairwise_sortLenDesc sufs) with
    ⟨suf, hmem, hne, heq, hmax⟩ | ⟨heq, hall⟩
  · left
    obtain ⟨h1, h2⟩ := removesuffix_ne_cases hne
    refine ⟨suf, mem_sortLenDesc.mp hmem, h1, h2, ?_, ?_⟩
    · rw [show removesuffixes sufs s = stripFirst s (sortLenDesc sufs) from rfl, heq,
        removesuffix_match h1 h2]
    · intro suf2 hm2 hne2 hend2
      exact hmax suf2 (mem_sortLenDesc.mpr hm2) (removesuffix_ne hne2 hend2)
  · right
    refine ⟨heq, ?_⟩
    intro suf hm hne
    cases hb : strEnds s.data suf.data with
    | false => rfl
    | true =>
      exact absurd (hall suf (mem_sortLenDesc.mpr hm)) (removesuffix_ne hne hb)

/-- C6: every name the enumeration yields is the name of some root entry
with the longest configured suffix that matches its end stripped (one
non-empty matching suffix of maximal length removed), or the entry's name
unchanged when no non-empty configured suffix matches its end. -/
theorem C6_strip_longest (d : RepoDict) (fs : FS) (x : String) (hx : x ∈ iterNames d fs) :
    ∃ nm isdir, (nm, isdir) ∈ fs.rootEntries ∧
      ((∃ suf, suf ∈ d.suffixes ∧ suf ≠ "" ∧ strEnds nm.data suf.data = true ∧
          x = String.mk (nm.data.take (nm.data.length - suf.data.length)) ∧
          ∀ suf2 ∈ d.suffixes, suf2 ≠ "" → strEnds nm.data suf2.data = true →
            suf2.data.length ≤ suf.data.length)
        ∨ (x = nm ∧ ∀ suf ∈ d.suffixes, suf ≠ "" → strEnds nm.data suf.data = false)) := by
  unfold iterNames at hx
  rcases List.mem_map.mp hx with ⟨e, he, hxe⟩
  rcases List.mem_filter.mp he with ⟨hemem, _⟩
  refine ⟨e.1, e.2, by simpa using hemem, ?_⟩
  rcases removesuffixes_spec d.suffixes e.1 with ⟨suf, hm, h1, h2, heq, hmax⟩ | ⟨heq, hall⟩
  · exact Or.inl ⟨suf, hm, h1, h2, by rw [← hxe, heq], hmax⟩
  · exact Or.inr ⟨by rw [← hxe, heq], hall⟩

def w6dict : RepoDict :=
  { root := [], ns := none, detectRemovals := true, exportOkPath := "git-daemon-export-ok",
    suffixes := [".git", ""], cache := [] }

def w6fs : FS := ⟨fun p => p == ["foo.git", "git-daemon-export-ok"], [("foo.git", true)]⟩

/-- Witness for C6: with suffixes "" and ".git" configured, the directory
"foo.git" is yielded as "foo". -/
theorem C6_strip_longest_witness :
    ∃ nm isdir, (nm, isdir) ∈ w6fs.rootEntries ∧
      ((∃ suf, suf ∈ w6dict.suffixes ∧ suf ≠ "" ∧ strEnds nm.data suf.data = true ∧
          "foo" = String.mk (nm.data.take (nm.data.length - suf.data.length)) ∧
          ∀ suf2 ∈ w6dict.suffixes, suf2 ≠ "" → strEnds nm.data suf2.data = true →
            suf2.data.length ≤ suf.data.length)
        ∨ ("foo" = nm ∧ ∀ suf ∈ w6dict.suffixes, suf ≠ "" → strEnds nm.data suf.data = false)) :=
  C6_strip_longest w6dict w6fs "foo" (by decide)

/-- C10: suffix stripping during enumeration removes at most one suffix
occurrence — the result is the string with exactly one non-empty matching
configured suffix removed, or the string unchanged — and it is never
applied repeatedly: "foo.git.git" with suffix ".git" yields "foo.git". -/
theorem C10_single_strip (sufs : List String) (s : String) :
    ((∃ suf, suf ∈ sufs ∧ suf ≠ "" ∧ strEnds s.data suf.data = true ∧
        removesuffixes sufs s = String.mk (s.data.take (s.data.length - suf.data.length)))
      ∨ (removesuffixes sufs s = s ∧ ∀ suf ∈ sufs, suf ≠ "" → strEnds s.data suf.data = false))
    ∧ removesuffixes [".git"] "foo.git.git" = "foo.git" := by
  refine ⟨?_, by decide⟩
  rcases removesuffixes_spec sufs s with ⟨suf, hm, h1, h2, heq, _⟩ | h
  · exact Or.inl ⟨suf, hm, h1, h2, heq⟩
  · exact Or.inr h

/-! ## The cache is keyed by name only (claim C5) -/

def c5dict : RepoDict :=
  { root := [], ns := none, detectRemovals := true, exportOkPath := "git-daemon-export-ok",
    suffixes := [".git", ""], cache := [] }

def c5fsA : FS := ⟨fun p => p == ["foo", "git-daemon-export-ok"], [("foo", true)]⟩

def c5fsB : FS := ⟨fun p => p == ["foo.git", "git-daemon-export-ok"], [("foo.git", true)]⟩

def c5dict2 : RepoDict := (getitemP '/' none c5dict c5fsA "foo").2.1

/-- Counterexample to C5: "foo" is first resolved and cached with the
matched suffix "" (handle path "foo"); after the filesystem changes, a
lookup of "foo" matches the different suffix ".git" yet still returns the
handle that was cached under "" — cache reuse is not restricted to the
creation-time suffix. -/
theorem C5_counterexample :
    (probeLoop (probePred c5dict c5fsA "foo") c5dict.suffixes.reverse).1 = some "" ∧
      (getitemP '/' none c5dict c5fsA "foo").1 = some ⟨["foo"], none⟩ ∧
      cacheLookup c5dict2.cache "foo" = some ⟨["foo"], none⟩ ∧
      (probeLoop (probePred c5dict2 c5fsB "foo") c5dict2.suffixes.reverse).1 = some ".git" ∧
      (getitemP '/' none c5dict2 c5fsB "foo").1 = some ⟨["foo"], none⟩ ∧
      ("" : String) ≠ ".git" := by
  refine ⟨by decide, by decide, by decide, by decide, by decide, by decide⟩

/-- C5 as amended: when removal detection is on, a cached handle for a
name is returned whenever any configured suffix matches on the lookup,
regardless of which suffix was matched when the handle was created (the
cache is keyed by the name alone; with removal detection off the cached
handle is returned before any suffix is probed at all). -/
theorem C5_amended_reuse (sep : Char) (altsep : Option Char) (d : RepoDict) (fs : FS)
    (name : String) (r : FancyRepo)
    (hv : validName sep altsep name = true)
    (hd : d.detectRemovals = true)
    (hc : cacheLookup d.cache name = some r)
    (hm : (probeLoop (probePred d fs name) d.suffixes.reverse).1.isSome = true) :
    (getitemP sep altsep d fs name).1 = some r := by
  rcases hpl : probeLoop (probePred d fs name) d.suffixes.reverse with ⟨o, k⟩
  rw [hpl] at hm
  rcases o with _ | s
  · simp at hm
  · rw [getitemP_matchCached hv hd hc hpl]

/-- Witness for the amended C5, at the counterexample's own state: the
".git" match serves the handle cached under "". -/
theorem C5_amended_reuse_witness :
    (getitemP '/' none c5dict2 c5fsB "foo").1 = some ⟨["foo"], none⟩ :=
  C5_amended_reuse '/' none c5dict2 c5fsB "foo" ⟨["foo"], none⟩ (by decide) (by decide)
    (by decide) (by decide)

/-! ## Marker path "." accepts every entry of the root (claim C7) -/

def c7dict : RepoDict :=
  { root := [], ns := none, detectRemovals := true, exportOkPath := ".",
    suffixes := [".git", ""], cache := [] }

def c7fs : FS := ⟨fun p => p == ["somefile"], [("somefile", false)]⟩

/-- Counterexample to C7: with markerPath "." and a root whose only entry
is a non-directory, enumeration still yields that entry — it does not
yield exactly the subdirectory names. -/
theorem C7_counterexample :
    iterNames c7dict c7fs = ["somefile"] ∧
      c7fs.rootEntries.all (fun e => !e.2) = true := by
  refine ⟨by decide, by decide⟩

/-- C7 as amended: with markerPath "." every existing entry of the root
(directory or not) passes the validity check, and enumeration yields
exactly the names of the root's entries, suffix-stripped. -/
theorem C7_amended_every_entry (d : RepoDict) (fs : FS)
    (hm : d.exportOkPath = ".")
    (hwf : ∀ e ∈ fs.rootEntries, fs.pathExists (d.root ++ [e.1]) = true) :
    (∀ e ∈ fs.rootEntries, isValidRepo d fs e.1 = true) ∧
      iterNames d fs = fs.rootEntries.map (fun e => removesuffixes d.suffixes e.1) := by
  have hvalid : ∀ e ∈ fs.rootEntries, isValidRepo d fs e.1 = true := by
    intro e he
    unfold isValidRepo
    rw [hm, show pathParse "." = [] from rfl, List.append_nil, hwf e he]
    simp
  refine ⟨hvalid, ?_⟩
  unfold iterNames
  rw [List.filter_eq_self.mpr (fun e he => hvalid e he)]

def w7fs : FS :=
  ⟨fun p => p == ["foo.git"] || p == ["docs"], [("foo.git", true), ("docs", false)]⟩

/-- Witness for the amended C7: a root with a directory "foo.git" and a
non-directory "docs"; both are valid and are enumerated suffix-stripped. -/
theorem C7_amended_every_entry_witness :
    (∀ e ∈ w7fs.rootEntries, isValidRepo c7dict w7fs e.1 = true) ∧
      iterNames c7dict w7fs = w7fs.rootEntries.map (fun e => removesuffixes c7dict.suffixes e.1) :=
  C7_amended_every_entry c7dict w7fs (by decide) (by decide)
